import Mathlib

/-!
# Verification of the webmaze graph generator

Shallow embedding of `network.py` (the `Page`/`Maze` classes) and of the
driver loops in `webmaze.py` (guaranteed-path phase and noise phase),
together with proofs of the spec's claims about them.

Modelling conventions:
* Pages are stored in the maze's `pages` list; a page's `links` list holds
  the *indices* of its neighbour pages (Python stores object references,
  but within one maze a reference is determined by the page's position in
  `pages`, and `in` / `is` on `Page` objects is reference identity).
* Python exceptions become an explicit error type `NetError`; a fallible
  operation returns `Except NetError Maze`.
* `random.randint` / `random.choice` / `random.random` draws are supplied
  by oracles (`Nat → Nat` for numeric draws, `Nat → Bool` for the
  noise-phase coin flips); unbounded `while True:` retry loops take a fuel
  argument and return `none` when the fuel runs out without the loop
  producing a value.
-/

/-- Exceptions raised by `network.py`.  `valueError` is Python's builtin
`ValueError` (raised by `Page.link` on a self-link), `linkExists` is the
repository's `LinkExistsError` (carrying the two page indices), and
`indexError` is the builtin `IndexError` from out-of-range list access. -/
inductive NetError where
  | valueError : String → NetError
  | linkExists : Nat → Nat → NetError
  | indexError : NetError
  deriving Repr, DecidableEq

/-- A page of the maze (`class Page` in `network.py`).  `links` holds the
indices of the linked pages; `filename` is computed in `Page.__init__`. -/
structure Page where
  index : Nat
  code : String
  image : String
  links : List Nat
  filename : String
  deriving Repr, DecidableEq

/-- `Page.__init__`: fresh page with empty links and the filename rule
`"0.html"` for index 0, `f"{code}.html"` otherwise. -/
def Page.new (index : Nat) (code image : String) : Page :=
  { index := index
    code := code
    image := image
    links := []
    filename := if index = 0 then "0.html" else code ++ ".html" }

/-- The maze (`class Maze` in `network.py`).  `codes` and `images` are the
`_codes` / `_images` bookkeeping lists; `image_names` is the (already
shuffled) candidate image list loaded from `things.json`. -/
structure Maze where
  pages : List Page
  size : Nat
  image_names : List String
  codes : List String
  images : List String
  deriving Repr, DecidableEq

/-- Whether page `i` lists page `j` among its links (`other in self.links`). -/
def hasLink (ps : List Page) (i j : Nat) : Bool :=
  match ps[i]? with
  | some p => p.links.contains j
  | none => false

/-- `Maze.link(ai, bi)` followed by `Page.link`: index both pages (an
out-of-range index raises `IndexError`), raise `ValueError` when the two
pages are the same object, raise `LinkExistsError` when `other` is already
in `self.links`, otherwise append each page to the other's links. -/
def Maze.link (m : Maze) (ai bi : Nat) : Except NetError Maze :=
  match m.pages[ai]?, m.pages[bi]? with
  | some a, some b =>
      if ai = bi then
        Except.error (NetError.valueError
          ("Cannot link page " ++ toString a.index ++ " to itself"))
      else if a.links.contains bi then
        Except.error (NetError.linkExists ai bi)
      else
        Except.ok { m with
          pages := (m.pages.set ai { a with links := a.links ++ [bi] }).set bi
                     { b with links := b.links ++ [ai] } }
  | _, _ => Except.error NetError.indexError

/-- `Maze.link` viewed as state transformer: on an exception the maze is
returned unchanged together with the raised error. -/
def Maze.linkRes (m : Maze) (ai bi : Nat) : Maze × Option NetError :=
  match m.link ai bi with
  | Except.ok m' => (m', none)
  | Except.error e => (m, some e)

/-- Python list indexing semantics (`l[i]` for `int` i): a negative index
counts from the end; a still-negative or too-large index raises
`IndexError` (modelled as `none`). -/
def pyIndex (l : List α) (i : Int) : Option α :=
  if i < 0 then
    if i + l.length < 0 then none else l[(i + l.length).toNat]?
  else l[i.toNat]?

/-- `Maze.get_page(index)`: `return self.pages[index]`. -/
def Maze.get_page (m : Maze) (i : Int) : Option Page :=
  pyIndex m.pages i

/-- `Maze.get_end()`: `return self.get_page(-1)`. -/
def Maze.get_end (m : Maze) : Option Page :=
  m.get_page (-1)

/-- `string.ascii_letters + string.digits`: the alphabet that
`Maze._generate_code` draws code characters from. -/
def codeAlphabet : List Char :=
  "abcdefghijklmnopqrstuvwxyzABCDEFGHIJKLMNOPQRSTUVWXYZ0123456789".toList

/-- One candidate code: `code_length = 8` successive `random.choice` draws
from `codeAlphabet`, the `j`-th character given by oracle draw `o (k + j)`. -/
def codeAt (o : Nat → Nat) (k : Nat) : String :=
  String.mk ((List.range 8).map fun j =>
    codeAlphabet.getD (o (k + j) % codeAlphabet.length) 'a')

/-- `Maze._generate_code`: draw candidate codes until one is not in
`self._codes`, record it and return it.  Returns the code, the updated
`_codes` list, and the next oracle position; `none` when `fuel` retries all
collide (the Python `while True:` loop would still be running). -/
def generateCode (o : Nat → Nat) :
    Nat → Nat → List String → Option (String × List String × Nat)
  | 0, _, _ => none
  | fuel + 1, k, codes =>
    let code := codeAt o k
    if code ∈ codes then generateCode o fuel (k + 8) codes
    else some (code, codes ++ [code], k + 8)

/-- `Maze._generate_image`: repeat `random.choice(self.image_names)` until
an image not in `self._images` appears, record it and return it.  `none`
when the `fuel` draws supplied all collide (the Python loop never exits if
no unissued image exists) or when `image_names` is empty (`random.choice`
raises there). -/
def generateImage (o : Nat → Nat) (imageNames : List String) :
    Nat → Nat → List String → Option (String × List String × Nat)
  | 0, _, _ => none
  | fuel + 1, k, images =>
    match imageNames[o k % imageNames.length]? with
    | none => none
    | some img =>
      if img ∈ images then generateImage o imageNames fuel (k + 1) images
      else some (img, images ++ [img], k + 1)

/-- The loop of `Maze._generate`: `count` more pages to append, each built
from a fresh code and a fresh image; the new page's index is the current
length of `pages`.  Returns the maze and the final oracle position. -/
def mazeGenLoop (o : Nat → Nat) (fuel : Nat) :
    Nat → Nat → Maze → Option (Maze × Nat)
  | 0, k, m => some (m, k)
  | count + 1, k, m => do
    let (code, codes', k') ← generateCode o fuel k m.codes
    let (img, images', k'') ← generateImage o m.image_names fuel k' m.images
    let page := Page.new m.pages.length code img
    mazeGenLoop o fuel count k''
      { m with pages := m.pages ++ [page], codes := codes', images := images' }

/-- `Maze.__init__(size)`: store `size`, shuffle the candidate image list
(the already-shuffled list is the `imageNames` argument; the `things.json`
read and the shuffle are external), then run `_generate`.  Note that
`__init__` performs no validation of `size`. -/
def mazeNew (o : Nat → Nat) (imageNames : List String) (size fuel : Nat) :
    Option Maze :=
  (mazeGenLoop o fuel size 0
    { pages := [], size := size, image_names := imageNames,
      codes := [], images := [] }).map Prod.fst

/-- The step drawn at oracle position `k`: `random.randint(1, 3)`. -/
def stepAt (o : Nat → Nat) (k : Nat) : Nat := o k % 3 + 1

/-- One update of the loop variable:
`cur = min(n - 1, cur + random.randint(1, 3))`. -/
def pathStep (o : Nat → Nat) (n k cur : Nat) : Nat :=
  min (n - 1) (cur + stepAt o k)

/-- The edges produced by the guaranteed-path loop of `webmaze.py`
(`while cur < n - 1: cur = min(n - 1, cur + random.randint(1, 3));
maze.link(prev, cur); prev = cur`), as `(prev, cur)` pairs.  `fuel` bounds
the number of iterations; `n` iterations always suffice since `cur`
strictly increases. -/
def pathEdgesAux (o : Nat → Nat) (n : Nat) : Nat → Nat → Nat → List (Nat × Nat)
  | 0, _, _ => []
  | fuel + 1, k, cur =>
    if cur < n - 1 then
      (cur, pathStep o n k cur) :: pathEdgesAux o n fuel (k + 1) (pathStep o n k cur)
    else []

/-- The full edge list of the guaranteed-path phase for an `n`-page maze. -/
def pathEdges (o : Nat → Nat) (n : Nat) : List (Nat × Nat) :=
  pathEdgesAux o n n 0 0

/-- The guaranteed-path loop itself, calling `maze.link(prev, cur)` at each
iteration; any exception propagates (the driver does not catch them here).
Returns the maze and the final value of `cur`. -/
def runPathAux (o : Nat → Nat) (n : Nat) :
    Nat → Nat → Nat → Maze → Except NetError (Maze × Nat)
  | 0, _, cur, m => Except.ok (m, cur)
  | fuel + 1, k, cur, m =>
    if cur < n - 1 then
      match m.link cur (pathStep o n k cur) with
      | Except.ok m' => runPathAux o n fuel (k + 1) (pathStep o n k cur) m'
      | Except.error e => Except.error e
    else Except.ok (m, cur)

/-- Phase 1 of `webmaze.py` on maze `m` with `n = len(pages)` pages. -/
def runPath (o : Nat → Nat) (n : Nat) (m : Maze) : Except NetError (Maze × Nat) :=
  runPathAux o n n 0 0 m

/-- The pairs enumerated by the noise loop of `webmaze.py`
(`for i in range(0, n - 2): for j in range(i + 1, n - 1)`), in order. -/
def noisePairs (n : Nat) : List (Nat × Nat) :=
  (List.range (n - 2)).flatMap fun i =>
    (List.range' (i + 1) (n - 1 - (i + 1))).map fun j => (i, j)

/-- The noise loop body over a pair list: when the coin for the pair comes
up (`random.random() < chance`), attempt `maze.link(i, j)`, swallowing
`LinkExistsError` (`except network.LinkExistsError: pass`) and propagating
every other exception. -/
def noiseRun (coin : Nat → Bool) :
    List (Nat × Nat) → Nat → Maze → Except NetError Maze
  | [], _, m => Except.ok m
  | (i, j) :: ps, k, m =>
    if coin k then
      match m.link i j with
      | Except.ok m' => noiseRun coin ps (k + 1) m'
      | Except.error (NetError.linkExists _ _) => noiseRun coin ps (k + 1) m
      | Except.error e => Except.error e
    else noiseRun coin ps (k + 1) m

/-- Phase 2 of `webmaze.py`: the noise loop over `noisePairs n`. -/
def noisePhase (coin : Nat → Bool) (n : Nat) (m : Maze) : Except NetError Maze :=
  noiseRun coin (noisePairs n) 0 m

/-- `Page._get_template`: the template file's text is the `content`
argument (the file read is external); each keyword argument `key ↦ value`
replaces every occurrence of `$KEY` in order. -/
def getTemplate (content : String) (substs : List (String × String)) : String :=
  substs.foldl (fun c kv => c.replace ("$" ++ kv.1.toUpper) kv.2) content

/-- The link fragment `Page.create` renders for one neighbour page. -/
def linkElement (linkTmpl : String) (neighbor : Page) : String :=
  getTemplate linkTmpl [("filename", neighbor.filename), ("image", neighbor.image)]

/-- The keyword substitutions `Page.create` passes when rendering the
position template, in keyword order (`id`, `image`, `end`, `links`). -/
def pageSubsts (linkTmpl : String) (p : Page) (endImage : String)
    (order : List Page) : List (String × String) :=
  [("id", toString p.index), ("image", p.image), ("end", endImage),
   ("links", String.intercalate "\n" (order.map (linkElement linkTmpl)))]

/-- `Page.create` minus the filesystem write: `random.shuffle(self.links)`
produces the `order` argument (the shuffled neighbour pages), each link
fragment is rendered, and the position template is substituted. -/
def pageContent (pageTmpl linkTmpl : String) (p : Page) (endImage : String)
    (order : List Page) : String :=
  getTemplate pageTmpl (pageSubsts linkTmpl p endImage order)

/-- Connectivity of two page indices through the (directed view of the)
`links` relation. -/
inductive Conn (ps : List Page) : Nat → Nat → Prop
  | refl (x : Nat) : Conn ps x x
  | step {x y z : Nat} : hasLink ps x y = true → Conn ps y z → Conn ps x z

/-- Mazes reachable from `m₀` by a sequence of successful `Maze.link`
calls. -/
inductive Reachable (m₀ : Maze) : Maze → Prop
  | refl : Reachable m₀ m₀
  | step {m₂ m₃ : Maze} {a b : Nat} :
      Reachable m₀ m₂ → m₂.link a b = Except.ok m₃ → Reachable m₀ m₃

/-- Symmetry and irreflexivity of the link relation of a page list. -/
def SymIrr (ps : List Page) : Prop :=
  (∀ i j, hasLink ps i j = hasLink ps j i) ∧ ∀ i, hasLink ps i i = false

/-- `edges` is a chain of strictly increasing steps starting at `c`:
each edge starts where the previous one ended, and goes strictly up. -/
def chainFrom : Nat → List (Nat × Nat) → Prop
  | _, [] => True
  | c, (a, b) :: es => a = c ∧ a < b ∧ chainFrom b es

/-- The final endpoint of a chain of edges started at `c`. -/
def endOf : Nat → List (Nat × Nat) → Nat
  | c, [] => c
  | _, (_, b) :: es => endOf b es

/-- Test fixture: a fresh two-page maze. -/
def testMaze2 : Maze :=
  { pages := [Page.new 0 "aaaaaaaa" "img0", Page.new 1 "bbbbbbbb" "img1"],
    size := 2, image_names := ["img0", "img1"],
    codes := ["aaaaaaaa", "bbbbbbbb"], images := ["img0", "img1"] }

/-- Test fixture: the maze generated by `Maze.__init__` from the identity
oracle over the two-image candidate list `["x", "y"]`. -/
def mazeT : Maze := (mazeNew (fun k => k) ["x", "y"] 2 8).getD testMaze2

/-- `hasLink` unfolded to a membership statement. -/
theorem hasLink_iff {ps : List Page} {i j : Nat} :
    hasLink ps i j = true ↔ ∃ p, ps[i]? = some p ∧ j ∈ p.links := by
  unfold hasLink
  cases h : ps[i]? <;> simp [List.contains]

/-- Unpacking a successful `Maze.link` call. -/
theorem Maze.link_ok_elim {m m' : Maze} {ai bi : Nat}
    (h : m.link ai bi = Except.ok m') :
    ∃ a b, m.pages[ai]? = some a ∧ m.pages[bi]? = some b ∧ ai ≠ bi ∧
      a.links.contains bi = false ∧
      m'.pages = (m.pages.set ai { a with links := a.links ++ [bi] }).set bi
        { b with links := b.links ++ [ai] } ∧ m'.size = m.size := by
  unfold Maze.link at h
  cases hA : m.pages[ai]? with
  | none =>
    cases hB : m.pages[bi]? <;> simp only [hA, hB] at h <;> exact Except.noConfusion h
  | some a =>
    cases hB : m.pages[bi]? with
    | none => simp only [hA, hB] at h; exact Except.noConfusion h
    | some b =>
      simp only [hA, hB] at h
      by_cases hab : ai = bi
      · rw [if_pos hab] at h; exact Except.noConfusion h
      · rw [if_neg hab] at h
        by_cases hc : a.links.contains bi = true
        · rw [if_pos hc] at h; exact Except.noConfusion h
        · rw [if_neg hc] at h
          injection h with h'
          refine ⟨a, b, rfl, rfl, hab, by simpa using hc, ?_, ?_⟩
          · rw [← h']
          · rw [← h']

/-- A successful link does not change the number of pages. -/
theorem Maze.link_length {m m' : Maze} {ai bi : Nat}
    (h : m.link ai bi = Except.ok m') : m'.pages.length = m.pages.length := by
  obtain ⟨a, b, -, -, -, -, hp, -⟩ := Maze.link_ok_elim h
  simp [hp]

/-- The link relation after a successful `Maze.link ai bi`: exactly the old
relation plus the two directions of the new edge. -/
theorem hasLink_link_iff {m m' : Maze} {ai bi : Nat}
    (h : m.link ai bi = Except.ok m') (i j : Nat) :
    hasLink m'.pages i j = true ↔
      hasLink m.pages i j = true ∨ (i = ai ∧ j = bi) ∨ (i = bi ∧ j = ai) := by
  obtain ⟨a, b, hA, hB, hab, -, hp, -⟩ := Maze.link_ok_elim h
  have hai : ai < m.pages.length := (List.getElem?_eq_some_iff.mp hA).1
  have hbi : bi < m.pages.length := (List.getElem?_eq_some_iff.mp hB).1
  by_cases hia : i = ai
  · subst hia
    have hgi : m'.pages[i]? = some { a with links := a.links ++ [bi] } := by
      rw [hp, List.getElem?_set_ne (Ne.symm hab), List.getElem?_set_self]
      simpa using hai
    rw [hasLink_iff, hasLink_iff]
    simp only [hgi, hA]
    constructor
    · rintro ⟨p, hps, hj⟩
      obtain rfl : p = { a with links := a.links ++ [bi] } := by
        simpa using hps.symm
      simp only [List.mem_append, List.mem_singleton] at hj
      rcases hj with hj | rfl
      · exact Or.inl ⟨a, rfl, hj⟩
      · exact Or.inr (Or.inl ⟨trivial, rfl⟩)
    · rintro (⟨p, hps, hj⟩ | ⟨-, rfl⟩ | ⟨h1, -⟩)
      · obtain rfl : p = a := by simpa using hps.symm
        exact ⟨_, rfl, by simp [hj]⟩
      · exact ⟨_, rfl, by simp⟩
      · exact absurd h1 hab
  · by_cases hib : i = bi
    · subst hib
      have hgi : m'.pages[i]? = some { b with links := b.links ++ [ai] } := by
        rw [hp, List.getElem?_set_self]
        simpa using hbi
      rw [hasLink_iff, hasLink_iff]
      simp only [hgi, hB]
      constructor
      · rintro ⟨p, hps, hj⟩
        obtain rfl : p = { b with links := b.links ++ [ai] } := by
          simpa using hps.symm
        simp only [List.mem_append, List.mem_singleton] at hj
        rcases hj with hj | rfl
        · exact Or.inl ⟨b, rfl, hj⟩
        · exact Or.inr (Or.inr ⟨trivial, rfl⟩)
      · rintro (⟨p, hps, hj⟩ | ⟨h1, -⟩ | ⟨-, rfl⟩)
        · obtain rfl : p = b := by simpa using hps.symm
          exact ⟨_, rfl, by simp [hj]⟩
        · exact absurd h1 hia
        · exact ⟨_, rfl, by simp⟩
    · have hgi : m'.pages[i]? = m.pages[i]? := by
        rw [hp, List.getElem?_set_ne (fun hh => hib hh.symm),
          List.getElem?_set_ne (fun hh => hia hh.symm)]
      rw [hasLink_iff, hasLink_iff, hgi]
      constructor
      · rintro ⟨p, hps, hj⟩; exact Or.inl ⟨p, hps, hj⟩
      · rintro (⟨p, hps, hj⟩ | ⟨h1, -⟩ | ⟨h1, -⟩)
        · exact ⟨p, hps, hj⟩
        · exact absurd h1 hia
        · exact absurd h1 hib

/-- A fresh page list (all links empty) has no links at all. -/
theorem hasLink_fresh {ps : List Page} (h0 : ∀ p ∈ ps, p.links = [])
    (i j : Nat) : hasLink ps i j = false := by
  unfold hasLink
  cases hp : ps[i]? with
  | none => rfl
  | some p => simp [List.contains, h0 p (List.getElem?_mem hp)]

/-- A successful `Maze.link` preserves symmetry and irreflexivity. -/
theorem SymIrr.link {m m' : Maze} {ai bi : Nat}
    (h : m.link ai bi = Except.ok m') (hs : SymIrr m.pages) :
    SymIrr m'.pages := by
  obtain ⟨hsym, hirr⟩ := hs
  obtain ⟨a, b, -, -, hab, -, -, -⟩ := Maze.link_ok_elim h
  constructor
  · intro i j
    rw [Bool.eq_iff_iff, hasLink_link_iff h, hasLink_link_iff h]
    have hij : hasLink m.pages i j = true ↔ hasLink m.pages j i = true := by
      rw [hsym i j]
    tauto
  · intro i
    rcases hv : hasLink m'.pages i i with - | -
    · rfl
    · rcases (hasLink_link_iff h i i).mp hv with hold | ⟨rfl, rfl⟩ | ⟨rfl, rfl⟩
      · rw [hirr i] at hold; exact Bool.noConfusion hold
      · exact absurd rfl hab
      · exact absurd rfl (Ne.symm hab)

/-- Every maze reachable by successful links from a fresh maze has a
symmetric and irreflexive link relation. -/
theorem reachable_symIrr {m₀ m : Maze}
    (h0 : ∀ p ∈ m₀.pages, p.links = []) (h : Reachable m₀ m) :
    SymIrr m.pages := by
  induction h with
  | refl => exact ⟨fun i j => by rw [hasLink_fresh h0, hasLink_fresh h0],
      fun i => hasLink_fresh h0 i i⟩
  | step _ hl ih => exact SymIrr.link hl ih

/-- Every pair enumerated by the noise loop satisfies `i < j ≤ n - 2`
(`j < n - 1`): the two loop ranges are `range(0, n - 2)` and
`range(i + 1, n - 1)`. -/
theorem noisePairs_lt {n : Nat} {q : Nat × Nat} (hq : q ∈ noisePairs n) :
    q.1 < q.2 ∧ q.2 < n - 1 := by
  unfold noisePairs at hq
  simp only [List.mem_flatMap, List.mem_map] at hq
  obtain ⟨i, hi, j, hj, rfl⟩ := hq
  obtain ⟨k, hk, rfl⟩ := List.mem_range'.mp hj
  rw [List.mem_range] at hi
  constructor <;> simp <;> omega

/-- C2: in every maze reachable from a fresh maze (all link lists empty) by
successful `link` operations, the neighbour relation is symmetric
(`hasLink i j = hasLink j i`) and irreflexive (`hasLink i i = false`). -/
theorem claim_c2_symmetric_irreflexive {m₀ m : Maze}
    (h0 : ∀ p ∈ m₀.pages, p.links = []) (h : Reachable m₀ m) :
    SymIrr m.pages :=
  reachable_symIrr h0 h

/-- Witness for C2: the maze obtained from `testMaze2` by linking pages 0
and 1 has a symmetric, irreflexive link relation. -/
theorem claim_c2_witness :
    SymIrr ((Maze.linkRes testMaze2 0 1).1).pages :=
  claim_c2_symmetric_irreflexive (by decide)
    (@Reachable.step testMaze2 testMaze2 ((Maze.linkRes testMaze2 0 1).1) 0 1
      Reachable.refl (by rfl))

/-- C3: calling `link` on an already-linked pair of distinct pages raises
`LinkExistsError` (the membership check runs before any mutation) and
leaves the maze unchanged. -/
theorem claim_c3_duplicate_link_rejected {m : Maze} {ai bi : Nat}
    (hne : ai ≠ bi) (hl : hasLink m.pages ai bi = true)
    (hbi : bi < m.pages.length) :
    m.linkRes ai bi = (m, some (NetError.linkExists ai bi)) := by
  obtain ⟨a, hA, hmem⟩ := hasLink_iff.mp hl
  have hB : m.pages[bi]? = some m.pages[bi] := List.getElem?_eq_getElem hbi
  unfold Maze.linkRes Maze.link
  simp only [hA, hB]
  rw [if_neg hne, if_pos (show a.links.contains bi = true by
    simp [List.contains, hmem])]

/-- Witness for C3: re-linking the already-linked pair (0, 1) of the linked
two-page maze yields `LinkExistsError` and the unchanged maze. -/
theorem claim_c3_witness :
    Maze.linkRes (Maze.linkRes testMaze2 0 1).1 0 1
      = ((Maze.linkRes testMaze2 0 1).1, some (NetError.linkExists 0 1)) :=
  claim_c3_duplicate_link_rejected (by decide) (by decide) (by decide)

/-- C6: linking a page to itself fails with the self-link `ValueError`
(`"Cannot link page ... to itself"`), and the noise phase never attempts
such a link because every pair it enumerates has `i < j`. -/
theorem claim_c6_self_link_rejected {m : Maze} {a : Nat} {p : Page}
    (hp : m.pages[a]? = some p) :
    m.link a a = Except.error (NetError.valueError
      ("Cannot link page " ++ toString p.index ++ " to itself"))
    ∧ ∀ n q, q ∈ noisePairs n → q.1 ≠ q.2 := by
  constructor
  · unfold Maze.link
    simp only [hp]
    rw [if_pos trivial]
  · intro n q hq
    exact Nat.ne_of_lt (noisePairs_lt hq).1

/-- Witness for C6: linking page 0 of the two-page fixture to itself raises
the self-link `ValueError`. -/
theorem claim_c6_witness :
    testMaze2.link 0 0 = Except.error (NetError.valueError
      ("Cannot link page " ++ toString (Page.new 0 "aaaaaaaa" "img0").index
        ++ " to itself"))
    ∧ ∀ n q, q ∈ noisePairs n → q.1 ≠ q.2 :=
  claim_c6_self_link_rejected (by decide)

/-- C10: `get_end()` is `get_page(-1)`.  When the stored size matches the
page count, a maze of size ≥ 1 gets the page at index `size - 1` from
`get_end`, and a maze of size 0 gets an `IndexError` (no page). -/
theorem claim_c10_get_end {m : Maze} (hsz : m.size = m.pages.length) :
    (1 ≤ m.size → m.get_end = m.get_page ((m.size : Int) - 1)
      ∧ m.get_end.isSome = true)
    ∧ (m.size = 0 → m.get_end = none) := by
  constructor
  · intro h1
    have hlen : 1 ≤ m.pages.length := by omega
    have hend : m.get_end = m.pages[m.pages.length - 1]? := by
      unfold Maze.get_end Maze.get_page pyIndex
      rw [if_pos (by norm_num), if_neg (by omega)]
      congr 1
      omega
    refine ⟨?_, ?_⟩
    · rw [hend]
      unfold Maze.get_page pyIndex
      rw [if_neg (by omega)]
      congr 1
      omega
    · rw [hend, List.getElem?_eq_getElem (by omega)]
      rfl
  · intro h0
    have hl : m.pages.length = 0 := by omega
    unfold Maze.get_end Maze.get_page pyIndex
    rw [if_pos (by norm_num), if_pos (by rw [hl]; norm_num)]

/-- Witness for C10: the two-page fixture's `get_end` is its page at
index `size - 1 = 1`. -/
theorem claim_c10_witness :
    (1 ≤ testMaze2.size → testMaze2.get_end
        = testMaze2.get_page ((testMaze2.size : Int) - 1)
      ∧ testMaze2.get_end.isSome = true)
    ∧ (testMaze2.size = 0 → testMaze2.get_end = none) :=
  claim_c10_get_end (by decide)

/-- On a fully issued pool, each `random.choice` draw collides, so the
retry loop of `_generate_image` makes no progress on any amount of fuel. -/
theorem generateImage_exhausted (o : Nat → Nat)
    {imageNames images : List String}
    (hsub : ∀ x ∈ imageNames, x ∈ images) :
    ∀ fuel k, generateImage o imageNames fuel k images = none := by
  intro fuel
  induction fuel with
  | zero => intro _; rfl
  | succ fuel ih =>
    intro k
    unfold generateImage
    cases hc : imageNames[o k % imageNames.length]? with
    | none => rfl
    | some img =>
      simp only [hc]
      rw [if_pos (hsub img (List.getElem?_mem hc))]
      exact ih (k + 1)

/-- With a one-element candidate list, `_generate_image` on an empty issued
list either runs out of fuel or returns that one element. -/
theorem generateImage_singleton (o : Nat → Nat) (s : String) (fuel k : Nat) :
    generateImage o [s] fuel k [] = none
      ∨ generateImage o [s] fuel k [] = some (s, [s], k + 1) := by
  cases fuel with
  | zero => exact Or.inl rfl
  | succ fuel =>
    right
    unfold generateImage
    simp [Nat.mod_one]

/-- C5: when every candidate image is already issued, `_generate_image`
never returns (it diverges rather than raising anything); in particular a
two-page maze over a one-image candidate list is never generated: the
second page's image draw spins forever. -/
theorem claim_c5_image_exhaustion_diverges (o : Nat → Nat)
    {imageNames images : List String}
    (hsub : ∀ x ∈ imageNames, x ∈ images) :
    (∀ fuel k, generateImage o imageNames fuel k images = none) ∧
    (∀ fuel, mazeNew o ["imgA"] 2 fuel = none) := by
  refine ⟨generateImage_exhausted o hsub, ?_⟩
  intro fuel
  unfold mazeNew mazeGenLoop
  cases hg : generateCode o fuel 0 [] with
  | none => simp [hg]
  | some v =>
    obtain ⟨c, codes', k'⟩ := v
    simp only [hg, Option.bind_eq_bind, Option.some_bind]
    rcases generateImage_singleton o "imgA" fuel k' with hi | hi
    · simp [hi]
    · simp only [hi, Option.some_bind]
      unfold mazeGenLoop
      cases hg2 : generateCode o fuel (k' + 1) codes' with
      | none => simp [hg2]
      | some v2 =>
        obtain ⟨c2, codes2, k2⟩ := v2
        simp [hg2, generateImage_exhausted o
          (show ∀ x ∈ (["imgA"] : List String), x ∈ ["imgA"] from fun x h => h)]

/-- Witness for C5: with candidate list `["imgA"]` and `"imgA"` already
issued, five fuel units of `_generate_image` make no progress. -/
theorem claim_c5_witness :
    (∀ x ∈ ["imgA"], x ∈ ["imgA"]) ∧
    generateImage (fun _ => 0) ["imgA"] 5 0 ["imgA"] = none ∧
    mazeNew (fun _ => 0) ["imgA"] 2 5 = none := by
  have h := claim_c5_image_exhaustion_diverges (fun _ => 0)
    (show ∀ x ∈ ["imgA"], x ∈ ["imgA"] by decide)
  exact ⟨by decide, h.1 5 0, h.2 5⟩

/-- The `_generate` loop appends exactly `count` pages; earlier pages are
untouched and each new page carries its position as index and starts with
no links. -/
theorem mazeGenLoop_pages (o : Nat → Nat) (fuel : Nat) :
    ∀ count k m m' k', mazeGenLoop o fuel count k m = some (m', k') →
      m'.pages.length = m.pages.length + count ∧
      m'.size = m.size ∧
      (∀ i, i < m.pages.length → m'.pages[i]? = m.pages[i]?) ∧
      (∀ i, m.pages.length ≤ i → ∀ p, m'.pages[i]? = some p →
        p.index = i ∧ p.links = []) := by
  intro count
  induction count with
  | zero =>
    intro k m m' k' h
    unfold mazeGenLoop at h
    injection h with h'
    obtain ⟨rfl, rfl⟩ : m = m' ∧ k = k' := by
      simpa [Prod.mk.injEq] using h'
    refine ⟨rfl, rfl, fun i _ => rfl, fun i hi p hp => ?_⟩
    rw [List.getElem?_eq_some_iff] at hp
    obtain ⟨hlt, -⟩ := hp
    omega
  | succ count ih =>
    intro k m m' k' h
    unfold mazeGenLoop at h
    cases hg : generateCode o fuel k m.codes with
    | none => rw [hg] at h; exact Option.noConfusion h
    | some v =>
      obtain ⟨c, codes', k1⟩ := v
      simp only [hg, Option.bind_eq_bind, Option.some_bind] at h
      cases hi : generateImage o m.image_names fuel k1 m.images with
      | none => rw [hi] at h; exact Option.noConfusion h
      | some w =>
        obtain ⟨img, images', k2⟩ := w
        simp only [hi, Option.some_bind] at h
        obtain ⟨hlen, hsz, hold, hnew⟩ := ih k2 _ m' k' h
        simp only [List.length_append, List.length_cons, List.length_nil] at hlen
        refine ⟨by simpa using by omega, hsz, ?_, ?_⟩
        · intro i hilt
          rw [hold i (by simp; omega), List.getElem?_append_left (by simpa using hilt)]
        · intro i hige p hp
          by_cases hieq : i = m.pages.length
          · subst hieq
            rw [hold _ (by simp)] at hp
            rw [List.getElem?_concat_length] at hp
            injection hp with hp'
            subst hp'
            exact ⟨rfl, rfl⟩
          · exact hnew i (by simp; omega) p hp

/-- C4 (amended): `Maze.__init__` performs no validation of `size`; every
successful construction yields exactly `size` pages, stored in index order
`0 .. size - 1`. -/
theorem claim_c4_constructor_builds_pages {o : Nat → Nat}
    {imageNames : List String} {size fuel : Nat} {m : Maze}
    (h : mazeNew o imageNames size fuel = some m) :
    m.pages.length = size ∧ m.size = size ∧
    ∀ (i : Nat) (p : Page), m.pages[i]? = some p → p.index = i := by
  unfold mazeNew at h
  cases hl : mazeGenLoop o fuel size 0
      { pages := [], size := size, image_names := imageNames,
        codes := [], images := [] } with
  | none => rw [hl] at h; exact Option.noConfusion h
  | some v =>
    obtain ⟨m1, k1⟩ := v
    rw [hl] at h
    obtain rfl : m1 = m := by simpa using h
    obtain ⟨hlen, hsz, -, hnew⟩ := mazeGenLoop_pages o fuel size 0 _ m1 k1 hl
    exact ⟨by simpa using hlen, hsz,
      fun i p hp => (hnew i (by simp) p hp).1⟩

/-- C4 counterexample: constructing a maze of size 0 or 1 succeeds; no
`InvalidSizeError` check exists in `Maze.__init__`. -/
theorem claim_c4_counterexample :
    (mazeNew (fun k => k) ["x"] 0 1).isSome = true ∧
    (mazeNew (fun k => k) ["x"] 1 1).isSome = true :=
  ⟨rfl, rfl⟩

/-- Witness for C4: a successfully generated two-page maze has two pages
with indices 0 and 1. -/
theorem claim_c4_witness :
    (mazeT.pages.length = 2 ∧ mazeT.size = 2 ∧
      ∀ (i : Nat) (p : Page), mazeT.pages[i]? = some p → p.index = i) :=
  claim_c4_constructor_builds_pages
    (show mazeNew (fun k => k) ["x", "y"] 2 8 = some mazeT from rfl)

/-- `_generate_code` only ever returns a code that is not among the already
issued ones, and records it by appending. -/
theorem generateCode_fresh (o : Nat → Nat) :
    ∀ fuel k codes c codes' k',
      generateCode o fuel k codes = some (c, codes', k') →
      c ∉ codes ∧ codes' = codes ++ [c] := by
  intro fuel
  induction fuel with
  | zero => intro k codes c codes' k' h; exact Option.noConfusion h
  | succ fuel ih =>
    intro k codes c codes' k' h
    unfold generateCode at h
    by_cases hc : codeAt o k ∈ codes
    · rw [if_pos hc] at h
      exact ih _ _ _ _ _ h
    · rw [if_neg hc] at h
      injection h with h'
      simp only [Prod.mk.injEq] at h'
      obtain ⟨rfl, rfl, rfl⟩ := h'
      exact ⟨hc, rfl⟩

/-- `_generate_image` only ever returns an image that is not among the
already issued ones, and records it by appending. -/
theorem generateImage_fresh (o : Nat → Nat) (imageNames : List String) :
    ∀ fuel k images img images' k',
      generateImage o imageNames fuel k images = some (img, images', k') →
      img ∉ images ∧ images' = images ++ [img] := by
  intro fuel
  induction fuel with
  | zero => intro k images img images' k' h; exact Option.noConfusion h
  | succ fuel ih =>
    intro k images img images' k' h
    unfold generateImage at h
    cases hg : imageNames[o k % imageNames.length]? with
    | none => rw [hg] at h; exact Option.noConfusion h
    | some cand =>
      simp only [hg] at h
      by_cases hc : cand ∈ images
      · rw [if_pos hc] at h
        exact ih _ _ _ _ _ h
      · rw [if_neg hc] at h
        injection h with h'
        simp only [Prod.mk.injEq] at h'
        obtain ⟨rfl, rfl, rfl⟩ := h'
        exact ⟨hc, rfl⟩

/-- Through the `_generate` loop, `_codes` / `_images` stay exactly the
codes / images of the pages built so far, without duplicates. -/
theorem mazeGenLoop_unique (o : Nat → Nat) (fuel : Nat) :
    ∀ count k m m' k', mazeGenLoop o fuel count k m = some (m', k') →
      m.codes = m.pages.map Page.code → m.images = m.pages.map Page.image →
      m.codes.Nodup → m.images.Nodup →
      m'.codes = m'.pages.map Page.code ∧ m'.images = m'.pages.map Page.image
        ∧ m'.codes.Nodup ∧ m'.images.Nodup := by
  intro count
  induction count with
  | zero =>
    intro k m m' k' h hc hi hcn hin
    unfold mazeGenLoop at h
    injection h with h'
    obtain ⟨rfl, rfl⟩ : m = m' ∧ k = k' := by
      simpa [Prod.mk.injEq] using h'
    exact ⟨hc, hi, hcn, hin⟩
  | succ count ih =>
    intro k m m' k' h hc hi hcn hin
    unfold mazeGenLoop at h
    cases hg : generateCode o fuel k m.codes with
    | none => rw [hg] at h; exact Option.noConfusion h
    | some v =>
      obtain ⟨c, codes', k1⟩ := v
      simp only [hg, Option.bind_eq_bind, Option.some_bind] at h
      cases hgi : generateImage o m.image_names fuel k1 m.images with
      | none => rw [hgi] at h; exact Option.noConfusion h
      | some w =>
        obtain ⟨img, images', k2⟩ := w
        simp only [hgi, Option.some_bind] at h
        obtain ⟨hcf, rfl⟩ := generateCode_fresh o fuel k m.codes c codes' k1 hg
        obtain ⟨hif, rfl⟩ :=
          generateImage_fresh o m.image_names fuel k1 m.images img images' k2 hgi
        refine ih k2 _ m' k' h ?_ ?_ ?_ ?_
        · simp [hc, Page.new]
        · simp [hi, Page.new]
        · simp [List.nodup_append, hcn, fun hmem => hcf hmem]
        · simp [List.nodup_append, hin, fun hmem => hif hmem]

/-- C7: all codes issued in one generation run are pairwise distinct, and
so are all issued images: a generated maze's page codes and page images
contain no duplicates. -/
theorem claim_c7_unique_codes_images {o : Nat → Nat}
    {imageNames : List String} {size fuel : Nat} {m : Maze}
    (h : mazeNew o imageNames size fuel = some m) :
    (m.pages.map Page.code).Nodup ∧ (m.pages.map Page.image).Nodup := by
  unfold mazeNew at h
  cases hl : mazeGenLoop o fuel size 0
      { pages := [], size := size, image_names := imageNames,
        codes := [], images := [] } with
  | none => rw [hl] at h; exact Option.noConfusion h
  | some v =>
    obtain ⟨m1, k1⟩ := v
    rw [hl] at h
    obtain rfl : m1 = m := by simpa using h
    obtain ⟨hc, hi, hcn, hin⟩ :=
      mazeGenLoop_unique o fuel size 0 _ m1 k1 hl rfl rfl
        List.nodup_nil List.nodup_nil
    exact ⟨hc ▸ hcn, hi ▸ hin⟩

/-- Witness for C7: the generated two-page fixture has distinct codes and
distinct images. -/
theorem claim_c7_witness :
    (mazeT.pages.map Page.code).Nodup ∧ (mazeT.pages.map Page.image).Nodup :=
  claim_c7_unique_codes_images
    (show mazeNew (fun k => k) ["x", "y"] 2 8 = some mazeT from rfl)

/-- For a pair of distinct in-range indices, `Maze.link` either reports the
existing edge or succeeds. -/
theorem Maze.link_cases (m : Maze) {ai bi : Nat} (hne : ai ≠ bi)
    (ha : ai < m.pages.length) (hb : bi < m.pages.length) :
    (hasLink m.pages ai bi = true
      ∧ m.link ai bi = Except.error (NetError.linkExists ai bi))
    ∨ (∃ m', m.link ai bi = Except.ok m') := by
  obtain ⟨a, hA⟩ : ∃ a, m.pages[ai]? = some a := ⟨_, List.getElem?_eq_getElem ha⟩
  obtain ⟨b, hB⟩ : ∃ b, m.pages[bi]? = some b := ⟨_, List.getElem?_eq_getElem hb⟩
  unfold Maze.link
  simp only [hA, hB]
  rw [if_neg hne]
  by_cases hc : a.links.contains bi = true
  · left
    refine ⟨hasLink_iff.mpr ⟨a, hA, by simpa [List.contains] using hc⟩, ?_⟩
    rw [if_pos hc]
  · right
    exact ⟨_, by rw [if_neg hc]⟩

/-- Connectivity is monotone in the link relation. -/
theorem Conn.mono {ps ps' : List Page}
    (hm : ∀ i j, hasLink ps i j = true → hasLink ps' i j = true) :
    ∀ {x y : Nat}, Conn ps x y → Conn ps' x y := by
  intro x y h
  induction h with
  | refl x => exact Conn.refl x
  | step hxy _ ih => exact Conn.step (hm _ _ hxy) ih

/-- The noise loop over any list of distinct in-range pairs runs to
completion (the only error it can meet is the caught `LinkExistsError`),
never removes a link, and keeps the page count. -/
theorem noiseRun_ok (coin : Nat → Bool) :
    ∀ (ps : List (Nat × Nat)) (k : Nat) (m : Maze),
      (∀ q ∈ ps, q.1 ≠ q.2 ∧ q.1 < m.pages.length ∧ q.2 < m.pages.length) →
      ∃ m', noiseRun coin ps k m = Except.ok m' ∧
        m'.pages.length = m.pages.length ∧
        (∀ i j, hasLink m.pages i j = true → hasLink m'.pages i j = true) := by
  intro ps
  induction ps with
  | nil => exact fun k m _ => ⟨m, rfl, rfl, fun i j hh => hh⟩
  | cons q ps ih =>
    obtain ⟨i, j⟩ := q
    intro k m hps
    obtain ⟨hne, hi, hj⟩ := hps (i, j) (List.mem_cons_self _ _)
    unfold noiseRun
    by_cases hcoin : coin k = true
    · rw [if_pos hcoin]
      rcases Maze.link_cases m hne hi hj with ⟨-, herr⟩ | ⟨m1, hok⟩
      · simp only [herr]
        exact ih (k + 1) m fun q hq => hps q (List.mem_cons_of_mem _ hq)
      · simp only [hok]
        have hlen1 := Maze.link_length hok
        obtain ⟨m', hrun, hlen', hmono'⟩ := ih (k + 1) m1 fun q hq => by
          obtain ⟨h1, h2, h3⟩ := hps q (List.mem_cons_of_mem _ hq)
          exact ⟨h1, by omega, by omega⟩
        refine ⟨m', hrun, by omega, fun a b hab => ?_⟩
        exact hmono' a b ((hasLink_link_iff hok a b).mpr (Or.inl hab))
    · rw [if_neg hcoin]
      exact ih (k + 1) m fun q hq => hps q (List.mem_cons_of_mem _ hq)

/-- The guaranteed-path loop's edge list is a strictly increasing chain
from `cur` to `n - 1`, provided the fuel covers the remaining distance. -/
theorem pathEdgesAux_chain (o : Nat → Nat) (n : Nat) :
    ∀ fuel k cur, cur ≤ n - 1 → n - 1 - cur ≤ fuel →
      chainFrom cur (pathEdgesAux o n fuel k cur) ∧
      endOf cur (pathEdgesAux o n fuel k cur) = n - 1 := by
  intro fuel
  induction fuel with
  | zero =>
    intro k cur h1 h2
    obtain rfl : cur = n - 1 := by omega
    exact ⟨trivial, rfl⟩
  | succ fuel ih =>
    intro k cur h1 h2
    unfold pathEdgesAux
    by_cases hlt : cur < n - 1
    · rw [if_pos hlt]
      have hs : 1 ≤ stepAt o k := by unfold stepAt; omega
      have h3 : cur < pathStep o n k cur := by unfold pathStep; omega
      have h4 : pathStep o n k cur ≤ n - 1 := by unfold pathStep; omega
      obtain ⟨hc, he⟩ := ih (k + 1) (pathStep o n k cur) h4 (by omega)
      exact ⟨⟨rfl, h3, hc⟩, he⟩
    · rw [if_neg hlt]
      obtain rfl : cur = n - 1 := by omega
      exact ⟨trivial, rfl⟩

/-- Main invariant of the guaranteed-path loop: starting below `n - 1` with
every linked index bounded by `cur`, the loop reaches `cur = n - 1`, adds
exactly the edges of `pathEdgesAux`, and connects `cur` to `n - 1`. -/
theorem runPathAux_spec (o : Nat → Nat) (n : Nat) :
    ∀ fuel k cur m,
      m.pages.length = n →
      (∀ i j, hasLink m.pages i j = true → j ≤ cur) →
      cur ≤ n - 1 → n - 1 - cur ≤ fuel →
      ∃ m', runPathAux o n fuel k cur m = Except.ok (m', n - 1) ∧
        m'.pages.length = n ∧
        (∀ i j, hasLink m'.pages i j = true ↔
          (hasLink m.pages i j = true ∨ (i, j) ∈ pathEdgesAux o n fuel k cur
            ∨ (j, i) ∈ pathEdgesAux o n fuel k cur)) ∧
        Conn m'.pages cur (n - 1) := by
  intro fuel
  induction fuel with
  | zero =>
    intro k cur m hlen hbnd hcur hfuel
    obtain rfl : cur = n - 1 := by omega
    refine ⟨m, rfl, hlen, fun i j => ?_, Conn.refl _⟩
    unfold pathEdgesAux
    simp
  | succ fuel ih =>
    intro k cur m hlen hbnd hcur hfuel
    unfold runPathAux pathEdgesAux
    by_cases hlt : cur < n - 1
    · rw [if_pos hlt, if_pos hlt]
      have hs : 1 ≤ stepAt o k := by unfold stepAt; omega
      have h3 : cur < pathStep o n k cur := by unfold pathStep; omega
      have h4 : pathStep o n k cur ≤ n - 1 := by unfold pathStep; omega
      have hcl : cur < m.pages.length := by omega
      have hnl : pathStep o n k cur < m.pages.length := by omega
      have hne : cur ≠ pathStep o n k cur := by omega
      have hnew : hasLink m.pages cur (pathStep o n k cur) = false := by
        cases hv : hasLink m.pages cur (pathStep o n k cur) with
        | false => rfl
        | true => exact absurd (hbnd _ _ hv) (by omega)
      rcases Maze.link_cases m hne hcl hnl with ⟨hdup, -⟩ | ⟨m1, hok⟩
      · rw [hnew] at hdup; exact Bool.noConfusion hdup
      · simp only [hok]
        have hlen1 : m1.pages.length = n := by
          rw [Maze.link_length hok]; exact hlen
        have hbnd1 : ∀ i j, hasLink m1.pages i j = true →
            j ≤ pathStep o n k cur := by
          intro i j hij
          rcases (hasLink_link_iff hok i j).mp hij with hold | ⟨-, rfl⟩ | ⟨-, rfl⟩
          · exact le_trans (hbnd _ _ hold) (by omega)
          · exact le_refl _
          · omega
        obtain ⟨m', hrun, hlen', hiff, hconn⟩ :=
          ih (k + 1) (pathStep o n k cur) m1 hlen1 hbnd1 h4 (by omega)
        refine ⟨m', hrun, hlen', ?_, ?_⟩
        · intro i j
          rw [hiff i j, hasLink_link_iff hok i j]
          simp only [List.mem_cons, Prod.mk.injEq]
          tauto
        · refine Conn.step ?_ hconn
          exact (hiff _ _).mpr (Or.inl
            ((hasLink_link_iff hok _ _).mpr (Or.inr (Or.inl ⟨rfl, rfl⟩))))
    · rw [if_neg hlt, if_neg hlt]
      obtain rfl : cur = n - 1 := by omega
      exact ⟨m, rfl, hlen, fun i j => by simp, Conn.refl _⟩

/-- C1: on a fresh maze with `n ≥ 2` pages the guaranteed-path phase runs
to completion, its edges form a strictly increasing chain from node 0 to
node `n - 1` (and are exactly the maze's links afterwards), and node 0
stays connected to node `n - 1` after any outcome of the noise phase. -/
theorem claim_c1_guaranteed_path {o : Nat → Nat} {coin : Nat → Bool}
    {n : Nat} {m0 : Maze} (hn : 2 ≤ n) (hlen : m0.pages.length = n)
    (hfresh : ∀ p ∈ m0.pages, p.links = []) :
    chainFrom 0 (pathEdges o n) ∧ endOf 0 (pathEdges o n) = n - 1 ∧
    ∃ m1, runPath o n m0 = Except.ok (m1, n - 1) ∧
      (∀ i j, hasLink m1.pages i j = true ↔
        ((i, j) ∈ pathEdges o n ∨ (j, i) ∈ pathEdges o n)) ∧
      ∃ m2, noisePhase coin n m1 = Except.ok m2 ∧ Conn m2.pages 0 (n - 1) := by
  obtain ⟨hchain, hend⟩ := pathEdgesAux_chain o n n 0 0 (by omega) (by omega)
  refine ⟨hchain, hend, ?_⟩
  obtain ⟨m1, hrun, hlen1, hiff, hconn⟩ :=
    runPathAux_spec o n n 0 0 m0 hlen
      (fun i j hij => by rw [hasLink_fresh hfresh] at hij
                         exact Bool.noConfusion hij)
      (by omega) (by omega)
  refine ⟨m1, hrun, fun i j => ?_, ?_⟩
  · rw [hiff i j, hasLink_fresh hfresh]
    simp [pathEdges]
  · have hb : ∀ q ∈ noisePairs n,
        q.1 ≠ q.2 ∧ q.1 < m1.pages.length ∧ q.2 < m1.pages.length := by
      intro q hq
      obtain ⟨h1, h2⟩ := noisePairs_lt hq
      exact ⟨by omega, by omega, by omega⟩
    obtain ⟨m2, hnoise, -, hmono⟩ := noiseRun_ok coin (noisePairs n) 0 m1 hb
    exact ⟨m2, hnoise, Conn.mono hmono hconn⟩

/-- Witness for C1: the two-page fixture with a constant step oracle and an
all-tails coin. -/
theorem claim_c1_witness :
    chainFrom 0 (pathEdges (fun _ => 0) 2)
      ∧ endOf 0 (pathEdges (fun _ => 0) 2) = 2 - 1
      ∧ ∃ m1, runPath (fun _ => 0) 2 testMaze2 = Except.ok (m1, 2 - 1) ∧
        (∀ i j, hasLink m1.pages i j = true ↔
          ((i, j) ∈ pathEdges (fun _ => 0) 2
            ∨ (j, i) ∈ pathEdges (fun _ => 0) 2)) ∧
        ∃ m2, noisePhase (fun _ => false) 2 m1 = Except.ok m2 ∧
          Conn m2.pages 0 (2 - 1) :=
  claim_c1_guaranteed_path (by omega) (by decide) (by decide)

/-- C8: the noise phase only ever attempts pairs `(i, j)` with
`i < j ≤ n - 2`, so the end node `n - 1` never receives a noise edge; for
`size = 2` the pair list is empty and the finished maze has exactly the one
guaranteed edge (0, 1). -/
theorem claim_c8_noise_excludes_end {o : Nat → Nat} {coin : Nat → Bool}
    {m0 : Maze} (hlen : m0.pages.length = 2)
    (hfresh : ∀ p ∈ m0.pages, p.links = []) :
    (∀ (n : Nat) (q : Nat × Nat), q ∈ noisePairs n → q.1 < q.2 ∧ q.2 < n - 1)
    ∧ noisePairs 2 = []
    ∧ ∃ m1, runPath o 2 m0 = Except.ok (m1, 1) ∧
        noisePhase coin 2 m1 = Except.ok m1 ∧
        m1.pages.map Page.links = [[1], [0]] := by
  refine ⟨fun n q hq => noisePairs_lt hq, rfl, ?_⟩
  obtain ⟨p0, p1, hps⟩ := List.length_eq_two.mp hlen
  have h0 : p0.links = [] := hfresh p0 (by rw [hps]; exact List.mem_cons_self _ _)
  have h1 : p1.links = [] := hfresh p1 (by rw [hps]; simp)
  have hstep : pathStep o 2 0 0 = 1 := by unfold pathStep stepAt; omega
  have hlink : m0.link 0 1 = Except.ok { m0 with
      pages := [{ p0 with links := [1] }, { p1 with links := [0] }] } := by
    unfold Maze.link
    rw [hps]
    simp [h0, h1]
  refine ⟨{ m0 with
      pages := [{ p0 with links := [1] }, { p1 with links := [0] }] },
    ?_, rfl, by simp⟩
  unfold runPath runPathAux
  simp [hstep, hlink]
  unfold runPathAux
  norm_num

/-- Witness for C8: the two-page fixture with an always-step oracle and an
all-heads coin. -/
theorem claim_c8_witness :
    (∀ (n : Nat) (q : Nat × Nat), q ∈ noisePairs n → q.1 < q.2 ∧ q.2 < n - 1)
    ∧ noisePairs 2 = []
    ∧ ∃ m1, runPath (fun _ => 1) 2 testMaze2 = Except.ok (m1, 1) ∧
        noisePhase (fun _ => true) 2 m1 = Except.ok m1 ∧
        m1.pages.map Page.links = [[1], [0]] :=
  claim_c8_noise_excludes_end (by decide) (by decide)

/-- C9: rendering the same finalized page under two neighbour orders that
are permutations of each other yields outputs that differ at most in the
order of the link fragments: the referenced (filename, image) pairs and the
rendered fragments are permutations of each other, the `id` / `image` /
`end` substitutions coincide, and each output is the template applied to
those common substitutions plus its own ordering of the fragments. -/
theorem claim_c9_render_modulo_order (pageTmpl linkTmpl : String) (p : Page)
    (endImage : String) {o1 o2 : List Page} (hperm : o1.Perm o2) :
    (o1.map fun q => (q.filename, q.image)).Perm
      (o2.map fun q => (q.filename, q.image))
    ∧ (o1.map (linkElement linkTmpl)).Perm (o2.map (linkElement linkTmpl))
    ∧ (pageSubsts linkTmpl p endImage o1).take 3
        = (pageSubsts linkTmpl p endImage o2).take 3
    ∧ pageContent pageTmpl linkTmpl p endImage o1
        = getTemplate pageTmpl ((pageSubsts linkTmpl p endImage o2).take 3
            ++ [("links",
              String.intercalate "\n" (o1.map (linkElement linkTmpl)))]) :=
  ⟨hperm.map _, hperm.map _, rfl, rfl⟩

/-- Witness for C9: the fixture's page list against its reversal. -/
theorem claim_c9_witness :
    (testMaze2.pages.map fun q => (q.filename, q.image)).Perm
      (testMaze2.pages.reverse.map fun q => (q.filename, q.image))
    ∧ (testMaze2.pages.map (linkElement "L")).Perm
        (testMaze2.pages.reverse.map (linkElement "L"))
    ∧ (pageSubsts "L" (Page.new 0 "c" "i") "e" testMaze2.pages).take 3
        = (pageSubsts "L" (Page.new 0 "c" "i") "e"
            testMaze2.pages.reverse).take 3
    ∧ pageContent "T" "L" (Page.new 0 "c" "i") "e" testMaze2.pages
        = getTemplate "T" ((pageSubsts "L" (Page.new 0 "c" "i") "e"
              testMaze2.pages.reverse).take 3
            ++ [("links", String.intercalate "\n"
              (testMaze2.pages.map (linkElement "L")))]) :=
  claim_c9_render_modulo_order "T" "L" (Page.new 0 "c" "i") "e" (by decide)
